import Mathlib

/-!
Verification of the version-resolution, search and favorite-store core of
`src/web/src/repositories/ProjectRepository.ts`.

The TypeScript functions are embedded as pure Lean functions.  JavaScript
strings are modelled as Lean `String`s; the host string primitives used by the
source (`toLowerCase`, `trim`, `includes`, `localeCompare`) and the `semver`
library functions (`coerce`, `compare`) are modelled for the ASCII range, which
covers every concrete input appearing in this development.  `Array.prototype.sort`
mutates in place, so the one stateful function (`getLatestVersion`) is embedded
with an explicit "array contents after the call" component.  `localStorage` is
embedded as an association list.
-/

namespace Docat

/-- Models JavaScript `String.prototype.toLowerCase` restricted to the ASCII
range: characters `A`-`Z` map to `a`-`z`, every other character is kept. -/
def charLower (c : Char) : Char :=
  if 'A' ≤ c && c ≤ 'Z' then Char.ofNat (c.toNat + 32) else c

/-- `s.toLowerCase()` on ASCII data. -/
def jsToLower (s : String) : String := ⟨s.data.map charLower⟩

/-- The ASCII whitespace characters stripped by `String.prototype.trim`. -/
def isWS (c : Char) : Bool := c == ' ' || c == '\t' || c == '\n' || c == '\r'

/-- `s.trim()`: strip leading and trailing whitespace. -/
def jsTrim (s : String) : String :=
  ⟨((s.data.dropWhile isWS).reverse.dropWhile isWS).reverse⟩

/-- `startsAt pat cs`: `pat` is a prefix of the character list `cs`. -/
def startsAt : List Char → List Char → Bool
  | [], _ => true
  | _ :: _, [] => false
  | a :: as, b :: bs => a == b && startsAt as bs

/-- `includesL pat cs`: `pat` occurs as a contiguous substring of `cs`. -/
def includesL (pat : List Char) : List Char → Bool
  | [] => pat.isEmpty
  | c :: rest => startsAt pat (c :: rest) || includesL pat rest

/-- Models JavaScript `s.includes(pat)`: substring containment. -/
def strIncludes (s pat : String) : Bool := includesL pat.data s.data

/-- Primary collation weight of a character, modelling the default-locale (ICU
root) collation used by `String.prototype.localeCompare`, restricted to ASCII:
letters compare case-insensitively at this level, digits sort before letters,
and the remaining ASCII characters (all of codepoint < 500) sort before
digits. -/
def primaryKey (c : Char) : Nat :=
  if 'a' ≤ c && c ≤ 'z' then 1000 + (c.toNat - 'a'.toNat)
  else if 'A' ≤ c && c ≤ 'Z' then 1000 + (c.toNat - 'A'.toNat)
  else if '0' ≤ c && c ≤ '9' then 500 + (c.toNat - '0'.toNat)
  else c.toNat

/-- Tertiary (case) collation weight: the default locale sorts lowercase before
uppercase when the primary weights tie. -/
def caseKey (c : Char) : Nat := if 'A' ≤ c && c ≤ 'Z' then 1 else 0

/-- Lexicographic comparison of two weight lists, returning -1, 0 or 1. -/
def cmpNatList : List Nat → List Nat → Int
  | [], [] => 0
  | [], _ :: _ => -1
  | _ :: _, [] => 1
  | a :: as, b :: bs => if a < b then -1 else if b < a then 1 else cmpNatList as bs

/-- Models `a.localeCompare(b)` under the default locale (ICU root collation),
restricted to ASCII: compare primary weights lexicographically and break full
primary ties with the case weights.  Returns -1, 0 or 1, as V8 does. -/
def localeCompare (a b : String) : Int :=
  if cmpNatList (a.data.map primaryKey) (b.data.map primaryKey) = 0 then
    cmpNatList (a.data.map caseKey) (b.data.map caseKey)
  else cmpNatList (a.data.map primaryKey) (b.data.map primaryKey)

/-- Plain per-codepoint string comparison — the order the specification calls
"case-sensitive lexical (codepoint) string comparison". -/
def codepointCompare (a b : String) : Int :=
  cmpNatList (a.data.map Char.toNat) (b.data.map Char.toNat)

/-- Numeric value of a list of decimal digit characters. -/
def natOfDigits (ds : List Char) : Nat :=
  ds.foldl (fun n c => 10 * n + (c.toNat - '0'.toNat)) 0

/-- One attempt of the `semver` COERCE regular expression
`(^|[^\d])(\d{1,16})(?:\.(\d{1,16}))?(?:\.(\d{1,16}))?($|[^\d])`
at the start of a maximal digit run, returning the raw digit runs of the three
matched components.  A run longer than 16 digits admits no match at this
position (every shorter greedy retry is followed by a digit); a too-long or
absent minor/patch run makes that optional group match empty, the following
`.` serving as the final non-digit, and `coerce` then rebuilds the version
string with `'0'` for the missing group (`match[3] || '0'`). -/
def coerceMatchAt (cs : List Char) : Option (List Char × List Char × List Char) :=
  let d1 := cs.takeWhile Char.isDigit
  let rest1 := cs.dropWhile Char.isDigit
  if d1.length = 0 || 16 < d1.length then none
  else
    match rest1 with
    | '.' :: cs2 =>
      let d2 := cs2.takeWhile Char.isDigit
      let rest2 := cs2.dropWhile Char.isDigit
      if d2.length = 0 || 16 < d2.length then some (d1, ['0'], ['0'])
      else
        match rest2 with
        | '.' :: cs3 =>
          let d3 := cs3.takeWhile Char.isDigit
          if d3.length = 0 || 16 < d3.length then some (d1, d2, ['0'])
          else some (d1, d2, d3)
        | _ => some (d1, d2, ['0'])
    | _ => some (d1, ['0'], ['0'])

/-- Leftmost match of the COERCE regex: the regex engine tries every index, and
an attempt can only succeed where a maximal digit run starts (at the string
start or right after a non-digit).  The boolean argument records whether the
previous character was a digit of an already-rejected run. -/
def coerceScanAux : Bool → List Char → Option (List Char × List Char × List Char)
  | _, [] => none
  | prev, c :: cs =>
    if c.isDigit then
      if prev then coerceScanAux true cs
      else
        match coerceMatchAt (c :: cs) with
        | some t => some t
        | none => coerceScanAux true cs
    else coerceScanAux false cs

/-- Number.MAX_SAFE_INTEGER: `semver` rejects larger numeric identifiers. -/
def maxSafeInteger : Nat := 9007199254740991

/-- A digit run is a valid numeric identifier of `semver`'s strict FULL
grammar (`0|[1-9]\d*`): no leading zero unless it is exactly `0`; and the
`SemVer` constructor additionally rejects values above
`Number.MAX_SAFE_INTEGER`. -/
def validNumericId (ds : List Char) : Bool :=
  (ds == ['0'] || ds.head? != some '0') && natOfDigits ds ≤ maxSafeInteger

/-- Models `semver.coerce(s)`: the leftmost COERCE match is rebuilt into the
string `"{major}.{minor}.{patch}"` (missing components as `0`) and re-parsed
with the strict semver grammar — so `coerce` yields null when a matched
component has a leading zero (e.g. the `04` of `1.04`) or exceeds
`Number.MAX_SAFE_INTEGER`. -/
def coerce (s : String) : Option (Nat × Nat × Nat) :=
  match coerceScanAux false s.data with
  | none => none
  | some (d1, d2, d3) =>
    if validNumericId d1 && validNumericId d2 && validNumericId d3 then
      some (natOfDigits d1, natOfDigits d2, natOfDigits d3)
    else none

/-- Three-way comparison of natural numbers, returning -1, 0 or 1. -/
def cmpNat (a b : Nat) : Int := if a < b then -1 else if b < a then 1 else 0

/-- Models `semver.compare` on two `coerce` results: a coerced version carries
no prerelease identifiers, so semver precedence is the numeric comparison of
major, then minor, then patch. -/
def semverCompare : Nat × Nat × Nat → Nat × Nat × Nat → Int
  | (a1, b1, c1), (a2, b2, c2) =>
    if cmpNat a1 a2 ≠ 0 then cmpNat a1 a2
    else if cmpNat b1 b2 ≠ 0 then cmpNat b1 b2
    else cmpNat c1 c2

/-- A version descriptor (the fields of `ProjectDetails` this module uses).
The optional tags array of `compareVersions` (`tags ?? []`) is modelled by a
list that is empty when the field is absent. -/
structure ProjectDetails where
  name : String
  tags : List String
  hidden : Bool
deriving DecidableEq

/-- A project: a name and its ordered list of version descriptors. -/
structure Project where
  name : String
  versions : List ProjectDetails
deriving DecidableEq

/-- A project-level search hit. -/
structure ProjectSearchResult where
  name : String
deriving DecidableEq

/-- A version- or tag-level search hit. -/
structure VersionSearchResult where
  project : String
  version : String
deriving DecidableEq

/-- The result of `search`. -/
structure SearchResult where
  projects : List ProjectSearchResult
  versions : List VersionSearchResult
deriving DecidableEq

/-- `compareVersions` from ProjectRepository.ts: a version tagged `latest`
wins immediately (the first argument is tested first); otherwise both names
are coerced to semver and compared, falling back to `localeCompare` of the raw
names when either coercion fails. -/
def compareVersions (versionA versionB : ProjectDetails) : Int :=
  if versionA.tags.contains "latest" then 1
  else if versionB.tags.contains "latest" then -1
  else
    match coerce versionA.name, coerce versionB.name with
    | some semverA, some semverB => semverCompare semverA semverB
    | _, _ => localeCompare versionA.name versionB.name

/-- Stable insertion of one element into an already-built list: the element
goes before the first entry it compares strictly below, hence after every
entry it ties with. -/
def insertJS {α : Type} (cmp : α → α → Int) (x : α) : List α → List α
  | [] => [x]
  | y :: ys => if cmp x y < 0 then x :: y :: ys else y :: insertJS cmp x ys

/-- Model of `Array.prototype.sort(cmp)`: a stable comparison sort.  For a
consistent comparator this produces the order ECMAScript mandates; for an
inconsistent comparator ECMAScript leaves the order implementation-defined and
this insertion sort is the behaviour the model fixes. -/
def sortJS {α : Type} (cmp : α → α → Int) (l : List α) : List α :=
  l.foldl (fun acc x => insertJS cmp x acc) []

/-- `getLatestVersion` from ProjectRepository.ts.  The first component is the
returned value — `none` models the `undefined` produced by indexing an empty
array at `length - 1`.  The second component is the contents of the caller's
array after the call: `Array.prototype.sort` sorts the array in place, so in
the sort branch the caller's array ends up reordered. -/
def getLatestVersionImpl (versions : List ProjectDetails) :
    Option ProjectDetails × List ProjectDetails :=
  match versions.find? (fun v => strIncludes v.name "latest") with
  | some latest => (some latest, versions)
  | none =>
    match versions.find? (fun v => v.tags.contains "latest") with
    | some latestTag => (some latestTag, versions)
    | none =>
      let sortedVersions := sortJS compareVersions versions
      (sortedVersions[sortedVersions.length - 1]?, sortedVersions)

/-- The value `getLatestVersion` returns. -/
def getLatestVersion (versions : List ProjectDetails) : Option ProjectDetails :=
  (getLatestVersionImpl versions).1

/-- `filterHiddenVersions` from ProjectRepository.ts.  The source first takes a
JSON round-trip deep copy of the argument, severing aliasing with the caller;
on plain data the copy has the same values, so under value semantics it is the
identity.  All subsequent mutation hits the copy, so the caller's list — the
second component — is returned unchanged. -/
def filterHiddenVersionsImpl (allProjects : List Project) :
    List Project × List Project :=
  let projects := allProjects.map
    (fun p => { p with versions := p.versions.filter (fun v => !v.hidden) })
  (projects.filter (fun p => 0 < p.versions.length), allProjects)

/-- The value `filterHiddenVersions` returns. -/
def filterHiddenVersions (allProjects : List Project) : List Project :=
  (filterHiddenVersionsImpl allProjects).1

/-- `search` from ProjectRepository.ts. -/
def search (projects : List Project) (searchQuery : String) : SearchResult :=
  let searchQueryLower := jsTrim (jsToLower searchQuery)
  let projectResults : List ProjectSearchResult :=
    (projects.filter (fun project =>
        strIncludes (jsToLower project.name) searchQueryLower &&
        project.versions.any (fun v => !v.hidden))).map
      (fun project => { name := project.name })
  let versionResults : List VersionSearchResult :=
    (projects.map (fun project =>
        (project.versions.filter (fun version =>
            strIncludes (jsToLower version.name) searchQueryLower &&
            !version.hidden)).map
          (fun version => { project := project.name, version := version.name }))).flatten
  let tagResults : List VersionSearchResult :=
    (projects.map (fun project =>
        (((project.versions.filter (fun version => !version.hidden)).map
            (fun version => version.tags.filter
              (fun tag => strIncludes (jsToLower tag) searchQueryLower))).map
          (fun version => version.map
            (fun tag => ({ project := project.name, version := tag } : VersionSearchResult)))).flatten)).flatten
  { projects := projectResults, versions := versionResults ++ tagResults }

/-- The browser `localStorage`: a string-keyed, string-valued persistent store,
modelled as an association list of key/value entries. -/
abbrev Store := List (String × String)

/-- `localStorage.getItem`: the value stored under the key, or none. -/
def getItem (s : Store) (k : String) : Option String :=
  (s.find? (fun e => e.1 == k)).map (fun e => e.2)

/-- `localStorage.setItem`: overwrite the entry for an existing key in place,
otherwise append a new entry. -/
def setItem (s : Store) (k v : String) : Store :=
  if s.any (fun e => e.1 == k) then
    s.map (fun e => if e.1 == k then (k, v) else e)
  else s ++ [(k, v)]

/-- `localStorage.removeItem`: drop every entry under the key. -/
def removeItem (s : Store) (k : String) : Store :=
  s.filter (fun e => !(e.1 == k))

/-- Whether the store holds any entry under the key. -/
def hasKey (s : Store) (k : String) : Bool := s.any (fun e => e.1 == k)

/-- `isFavorite` from ProjectRepository.ts:
`localStorage.getItem(projectName) === 'favorite'`. -/
def isFavorite (s : Store) (projectName : String) : Bool :=
  getItem s projectName == some "favorite"

/-- `setFavorite` from ProjectRepository.ts: `true` writes the sentinel value
`"favorite"` under the project name, `false` removes the key. -/
def setFavorite (s : Store) (projectName : String) (shouldBeFavorite : Bool) : Store :=
  if shouldBeFavorite then setItem s projectName "favorite"
  else removeItem s projectName

/-- `m` is a maximum of `l` under `compareVersions`: no element of `l` compares
strictly above it. -/
def maximalIn (l : List ProjectDetails) (m : ProjectDetails) : Bool :=
  l.all (fun x => compareVersions x m ≤ 0)

/-- `m` dominates `l` under `compareVersions`: `m` compares at or above every
element (the other possible reading of "maximum element"). -/
def dominates (l : List ProjectDetails) (m : ProjectDetails) : Bool :=
  l.all (fun x => 0 ≤ compareVersions m x)

/-- The version-name matches of a query, as the specification words them: every
non-hidden version whose lower-cased name contains the (already normalized)
query, in project-then-version iteration order. -/
def versionNameMatches (projects : List Project) (q : String) : List VersionSearchResult :=
  projects.flatMap (fun p =>
    (p.versions.filter (fun v =>
        strIncludes (jsToLower v.name) q && !v.hidden)).map
      (fun v => { project := p.name, version := v.name }))

/-- The tag matches of a query, as the specification words them: one entry per
matching tag of every non-hidden version, the tag string itself becoming the
`version` field, in project-then-version-then-tag iteration order. -/
def tagMatches (projects : List Project) (q : String) : List VersionSearchResult :=
  projects.flatMap (fun p =>
    (p.versions.filter (fun v => !v.hidden)).flatMap (fun v =>
      (v.tags.filter (fun t => strIncludes (jsToLower t) q)).map
        (fun t => { project := p.name, version := t })))

/-! ## Basic comparison lemmas -/

theorem cmpNatList_neg (xs : List Nat) : ∀ ys, cmpNatList xs ys = -cmpNatList ys xs := by
  induction xs with
  | nil => intro ys; cases ys <;> rfl
  | cons a as ih =>
    intro ys
    cases ys with
    | nil => rfl
    | cons b bs =>
      simp only [cmpNatList]
      rcases Nat.lt_trichotomy a b with h | h | h
      · simp [h, Nat.lt_asymm h]
      · subst h
        simp [Nat.lt_irrefl, ih bs]
      · simp [h, Nat.lt_asymm h]

theorem localeCompare_neg (a b : String) : localeCompare a b = -localeCompare b a := by
  unfold localeCompare
  rw [cmpNatList_neg (a.data.map primaryKey) (b.data.map primaryKey),
    cmpNatList_neg (a.data.map caseKey) (b.data.map caseKey)]
  rcases eq_or_ne (cmpNatList (b.data.map primaryKey) (a.data.map primaryKey)) 0 with h | h
  · simp [h]
  · simp [h, neg_eq_zero]

theorem cmpNat_neg (a b : Nat) : cmpNat a b = -cmpNat b a := by
  unfold cmpNat
  rcases Nat.lt_trichotomy a b with h | h | h
  · simp [h, Nat.lt_asymm h]
  · subst h; simp [Nat.lt_irrefl]
  · simp [h, Nat.lt_asymm h]

theorem semverCompare_neg (t u : Nat × Nat × Nat) :
    semverCompare t u = -semverCompare u t := by
  obtain ⟨a1, b1, c1⟩ := t
  obtain ⟨a2, b2, c2⟩ := u
  simp only [semverCompare]
  rw [cmpNat_neg a1 a2, cmpNat_neg b1 b2, cmpNat_neg c1 c2]
  by_cases h1 : cmpNat a2 a1 = 0 <;> by_cases h2 : cmpNat b2 b1 = 0 <;>
    simp [h1, h2, neg_eq_zero]

/-! ## Claims about the version comparator -/

/-- C2: for every pair of version descriptors not both tagged `latest`,
`compareVersions` is antisymmetric: `compare(a,b) = -compare(b,a)`. -/
theorem compareVersions_antisym (a b : ProjectDetails)
    (h : ¬(a.tags.contains "latest" = true ∧ b.tags.contains "latest" = true)) :
    compareVersions a b = -compareVersions b a := by
  unfold compareVersions
  by_cases ha : a.tags.contains "latest" = true
  · have hb : ¬b.tags.contains "latest" = true := fun hb => h ⟨ha, hb⟩
    simp only [if_pos ha, if_neg hb]
    decide
  · by_cases hb : b.tags.contains "latest" = true
    · simp only [if_pos hb, if_neg ha]
    · simp only [if_neg ha, if_neg hb]
      rcases hca : coerce a.name with _ | sa <;> rcases hcb : coerce b.name with _ | sb <;>
        simp only [hca, hcb] <;>
        first
          | exact localeCompare_neg a.name b.name
          | exact semverCompare_neg sa sb

/-- Witness for C2 at a concrete pair of descriptors. -/
theorem compareVersions_antisym_witness :
    compareVersions ⟨"1.0.0", [], false⟩ ⟨"2.0.0", ["stable"], false⟩ =
      -compareVersions ⟨"2.0.0", ["stable"], false⟩ ⟨"1.0.0", [], false⟩ :=
  compareVersions_antisym ⟨"1.0.0", [], false⟩ ⟨"2.0.0", ["stable"], false⟩ (by decide)

/-- C4 counterexample: the names `"a"` and `"B"` have no `latest` tag and do
not coerce to semver, yet `compareVersions` puts `"a"` below `"B"` (default
locale collation compares letters case-insensitively at primary strength)
while codepoint comparison puts `"B"` (0x42) below `"a"` (0x61): the signs
disagree, so the fallback is not plain codepoint comparison. -/
theorem compareVersions_lexical_cex :
    compareVersions ⟨"a", [], false⟩ ⟨"B", [], false⟩ = -1 ∧
    codepointCompare "a" "B" = 1 ∧
    coerce "a" = none ∧ coerce "B" = none := by decide

/-- C4 (amended): for every pair of descriptors with no `latest` tag where at
least one name does not coerce to semver, `compareVersions` equals the
locale-aware collation `localeCompare` of the raw names (default-locale ICU
collation: case-insensitive primary letter order, lowercase-first tiebreak) —
not plain codepoint comparison. -/
theorem compareVersions_lexical_fallback (a b : ProjectDetails)
    (ha : a.tags.contains "latest" = false) (hb : b.tags.contains "latest" = false)
    (hc : coerce a.name = none ∨ coerce b.name = none) :
    compareVersions a b = localeCompare a.name b.name := by
  unfold compareVersions
  have ha' : ¬a.tags.contains "latest" = true := by rw [ha]; decide
  have hb' : ¬b.tags.contains "latest" = true := by rw [hb]; decide
  simp only [if_neg ha', if_neg hb']
  rcases hca : coerce a.name with _ | sa <;> rcases hcb : coerce b.name with _ | sb <;>
    [skip; skip; skip; exact absurd hcb (by rcases hc with hc | hc <;> simp_all)] <;>
    simp only [hca, hcb]

/-- Witness for C4 (amended) at a concrete pair of non-coercible names. -/
theorem compareVersions_lexical_fallback_witness :
    compareVersions ⟨"abc", [], false⟩ ⟨"x", [], false⟩ = localeCompare "abc" "x" :=
  compareVersions_lexical_fallback ⟨"abc", [], false⟩ ⟨"x", [], false⟩
    (by decide) (by decide) (Or.inl (by decide))

/-! ## Claims about getLatestVersion -/

/-- C3: called on the empty list, `getLatestVersion` does not fail with an
InvalidInput error — it indexes the empty sorted array at `-1` and returns
`undefined` (modelled `none`), contradicting its declared return type. -/
theorem getLatestVersion_nil : getLatestVersion [] = none := rfl

/-- C5 (code bug): `Array.prototype.sort` sorts the caller's array in place, so
after a call that reaches the sort branch the caller-owned input list has been
reordered — here `[b, a]` has become `[a, b]`. -/
theorem getLatestVersion_mutates :
    (getLatestVersionImpl [⟨"b", [], false⟩, ⟨"a", [], false⟩]).2 ≠
      [⟨"b", [], false⟩, ⟨"a", [], false⟩] := by decide

/-! ## Sorting lemmas -/

theorem mem_insertJS {α : Type} (cmp : α → α → Int) (x : α) :
    ∀ (ys : List α) (z : α), z ∈ insertJS cmp x ys ↔ z = x ∨ z ∈ ys := by
  intro ys
  induction ys with
  | nil => intro z; simp [insertJS]
  | cons y ys ih =>
    intro z
    simp only [insertJS]
    by_cases h : cmp x y < 0
    · simp [h]
    · simp only [h, if_false, List.mem_cons, ih z]
      tauto

theorem mem_foldl_insertJS {α : Type} (cmp : α → α → Int) :
    ∀ (m acc : List α) (z : α),
      z ∈ m.foldl (fun acc x => insertJS cmp x acc) acc ↔ z ∈ acc ∨ z ∈ m := by
  intro m
  induction m with
  | nil => simp
  | cons x xs ih =>
    intro acc z
    simp only [List.foldl_cons]
    rw [ih, mem_insertJS]
    simp only [List.mem_cons]
    tauto

theorem sortJS_mem {α : Type} (cmp : α → α → Int) (l : List α) (z : α) :
    z ∈ sortJS cmp l ↔ z ∈ l := by
  unfold sortJS
  rw [mem_foldl_insertJS]
  simp

theorem pairwise_insertJS {α : Type} (cmp : α → α → Int) (u : List α)
    (hanti : ∀ a ∈ u, ∀ b ∈ u, cmp a b = -cmp b a)
    (htrans : ∀ a ∈ u, ∀ b ∈ u, ∀ c ∈ u, cmp a b ≤ 0 → cmp b c ≤ 0 → cmp a c ≤ 0)
    (x : α) (hx : x ∈ u) :
    ∀ (ys : List α), (∀ y ∈ ys, y ∈ u) →
      ys.Pairwise (fun a b => cmp a b ≤ 0) →
      (insertJS cmp x ys).Pairwise (fun a b => cmp a b ≤ 0) := by
  intro ys
  induction ys with
  | nil => intro _ _; simp [insertJS]
  | cons y ys ih =>
    intro hmem hp
    have hy : y ∈ u := hmem y (List.mem_cons_self y ys)
    have hys : ∀ z ∈ ys, z ∈ u := fun z hz => hmem z (List.mem_cons_of_mem y hz)
    rw [List.pairwise_cons] at hp
    simp only [insertJS]
    by_cases h : cmp x y < 0
    · rw [if_pos h]
      rw [List.pairwise_cons]
      refine ⟨?_, List.pairwise_cons.2 hp⟩
      intro z hz
      rcases List.mem_cons.1 hz with hz | hz
      · subst hz; exact le_of_lt h
      · exact htrans x hx y hy z (hys z hz) (le_of_lt h) (hp.1 z hz)
    · rw [if_neg h]
      rw [List.pairwise_cons]
      constructor
      · intro z hz
        rcases (mem_insertJS cmp x ys z).1 hz with hz | hz
        · rw [hz]
          have := hanti x hx y hy
          omega
        · exact hp.1 z hz
      · exact ih hys hp.2

theorem pairwise_foldl_insertJS {α : Type} (cmp : α → α → Int) (u : List α)
    (hanti : ∀ a ∈ u, ∀ b ∈ u, cmp a b = -cmp b a)
    (htrans : ∀ a ∈ u, ∀ b ∈ u, ∀ c ∈ u, cmp a b ≤ 0 → cmp b c ≤ 0 → cmp a c ≤ 0) :
    ∀ (m acc : List α), (∀ y ∈ m, y ∈ u) → (∀ y ∈ acc, y ∈ u) →
      acc.Pairwise (fun a b => cmp a b ≤ 0) →
      (m.foldl (fun acc x => insertJS cmp x acc) acc).Pairwise (fun a b => cmp a b ≤ 0) := by
  intro m
  induction m with
  | nil => intro acc _ _ hp; exact hp
  | cons x xs ih =>
    intro acc hm hacc hp
    have hx : x ∈ u := hm x (List.mem_cons_self x xs)
    have hxs : ∀ y ∈ xs, y ∈ u := fun y hy => hm y (List.mem_cons_of_mem x hy)
    simp only [List.foldl_cons]
    refine ih (insertJS cmp x acc) hxs ?_ ?_
    · intro y hy
      rcases (mem_insertJS cmp x acc y).1 hy with hy | hy
      · subst hy; exact hx
      · exact hacc y hy
    · exact pairwise_insertJS cmp u hanti htrans x hx acc hacc hp

theorem pairwise_sortJS {α : Type} (cmp : α → α → Int) (l : List α)
    (hanti : ∀ a ∈ l, ∀ b ∈ l, cmp a b = -cmp b a)
    (htrans : ∀ a ∈ l, ∀ b ∈ l, ∀ c ∈ l, cmp a b ≤ 0 → cmp b c ≤ 0 → cmp a c ≤ 0) :
    (sortJS cmp l).Pairwise (fun a b => cmp a b ≤ 0) :=
  pairwise_foldl_insertJS cmp l hanti htrans l [] (fun _ h => h) (by simp) (by simp)

theorem mem_of_getLastSome {α : Type} :
    ∀ {l : List α} {m : α}, l.getLast? = some m → m ∈ l := by
  intro l
  induction l with
  | nil => intro m h; cases h
  | cons a l ih =>
    intro m h
    cases l with
    | nil =>
      simp only [List.getLast?_singleton, Option.some.injEq] at h
      subst h
      exact List.mem_singleton_self a
    | cons b t =>
      rw [List.getLast?_cons_cons] at h
      exact List.mem_cons_of_mem a (ih h)

theorem pairwise_rel_getLast {α : Type} (R : α → α → Prop) :
    ∀ (xs : List α), xs.Pairwise R → (∀ a ∈ xs, R a a) →
      ∀ m, xs.getLast? = some m → ∀ x ∈ xs, R x m := by
  intro xs
  induction xs with
  | nil => intro _ _ m h; cases h
  | cons a xs ih =>
    intro hp hrefl m hm x hx
    rw [List.pairwise_cons] at hp
    cases xs with
    | nil =>
      simp only [List.getLast?_singleton, Option.some.injEq] at hm
      subst hm
      rcases List.mem_singleton.1 hx with rfl
      exact hrefl x (List.mem_singleton_self x)
    | cons b t =>
      rw [List.getLast?_cons_cons] at hm
      rcases List.mem_cons.1 hx with hx | hx
      · subst hx
        exact hp.1 m (mem_of_getLastSome hm)
      · exact ih hp.2 (fun y hy => hrefl y (List.mem_cons_of_mem a hy)) m hm x hx

/-! ## Claims C1 and C3/C5 context: getLatestVersion -/

/-- C1 counterexample: on this list no name contains `latest` and no version is
tagged `latest`, yet `compareVersions` is cyclic on it (`2.0 < 10.0` by semver,
`10.0 < 11111111111111111 < 2.0` by the string fallback, the 17-digit run
being too long for semver coercion), so no element of the list is a maximum
under the comparator in either direction — in particular the element
`getLatestVersion` returns is not one. -/
theorem getLatestVersion_max_cex :
    ([⟨"2.0", [], false⟩, ⟨"10.0", [], false⟩,
        ⟨"11111111111111111", [], false⟩] : List ProjectDetails).find?
      (fun v => strIncludes v.name "latest") = none ∧
    ([⟨"2.0", [], false⟩, ⟨"10.0", [], false⟩,
        ⟨"11111111111111111", [], false⟩] : List ProjectDetails).find?
      (fun v => v.tags.contains "latest") = none ∧
    (getLatestVersion [⟨"2.0", [], false⟩, ⟨"10.0", [], false⟩,
        ⟨"11111111111111111", [], false⟩]).map
      (fun m =>
        maximalIn [⟨"2.0", [], false⟩, ⟨"10.0", [], false⟩,
          ⟨"11111111111111111", [], false⟩] m ||
        dominates [⟨"2.0", [], false⟩, ⟨"10.0", [], false⟩,
          ⟨"11111111111111111", [], false⟩] m) = some false := by decide

/-- C1 (amended): for every non-empty list of versions, `getLatestVersion`
returns the first version whose name contains `"latest"`; failing that, the
first version tagged `"latest"`; failing both, the last element of the list
sorted by `compareVersions` — an element of the list that is a maximum under
`compareVersions` whenever the comparator is antisymmetric and transitive on
the list's elements (as it is when, e.g., every name coerces to semver); on
mixed semver/non-semver lists the comparator can be cyclic and a maximum need
not exist. -/
theorem getLatestVersion_spec (l : List ProjectDetails) (hne : l ≠ []) :
    (∀ v, l.find? (fun v => strIncludes v.name "latest") = some v →
        getLatestVersion l = some v) ∧
    (l.find? (fun v => strIncludes v.name "latest") = none →
      ∀ v, l.find? (fun v => v.tags.contains "latest") = some v →
        getLatestVersion l = some v) ∧
    (l.find? (fun v => strIncludes v.name "latest") = none →
      l.find? (fun v => v.tags.contains "latest") = none →
      (∀ a ∈ l, ∀ b ∈ l, compareVersions a b = -compareVersions b a) →
      (∀ a ∈ l, ∀ b ∈ l, ∀ c ∈ l,
        compareVersions a b ≤ 0 → compareVersions b c ≤ 0 →
          compareVersions a c ≤ 0) →
      ∃ m, getLatestVersion l = some m ∧ m ∈ l ∧
        ∀ x ∈ l, compareVersions x m ≤ 0) := by
  refine ⟨?_, ?_, ?_⟩
  · intro v hv
    unfold getLatestVersion getLatestVersionImpl
    rw [hv]
  · intro h1 v hv
    unfold getLatestVersion getLatestVersionImpl
    rw [h1, hv]
  · intro h1 h2 hanti htrans
    unfold getLatestVersion getLatestVersionImpl
    rw [h1, h2]
    have hsne : sortJS compareVersions l ≠ [] := by
      cases l with
      | nil => exact absurd rfl hne
      | cons a t =>
        exact List.ne_nil_of_mem
          ((sortJS_mem compareVersions (a :: t) a).2 (List.mem_cons_self a t))
    obtain ⟨m, hm⟩ := Option.isSome_iff_exists.1 (List.getLast?_isSome.2 hsne)
    have hidx : (sortJS compareVersions l)[(sortJS compareVersions l).length - 1]? =
        some m := by
      rw [← List.getLast?_eq_getElem?]
      exact hm
    refine ⟨m, hidx, ?_, ?_⟩
    · exact (sortJS_mem compareVersions l m).1 (mem_of_getLastSome hm)
    · intro x hx
      have hpw := pairwise_sortJS compareVersions l hanti htrans
      refine pairwise_rel_getLast _ (sortJS compareVersions l) hpw ?_ m hm x
        ((sortJS_mem compareVersions l x).2 hx)
      intro a ha
      have ha' : a ∈ l := (sortJS_mem compareVersions l a).1 ha
      have := hanti a ha' a ha'
      omega

/-- Witness for C1 (amended): the name-substring rule fires first on a
concrete list. -/
theorem getLatestVersion_spec_witness :
    getLatestVersion [⟨"1.0.0", [], false⟩, ⟨"latest-build", [], false⟩] =
      some ⟨"latest-build", [], false⟩ :=
  (getLatestVersion_spec [⟨"1.0.0", [], false⟩, ⟨"latest-build", [], false⟩]
    (by decide)).1 ⟨"latest-build", [], false⟩ (by decide)

/-! ## Claim C6: filterHiddenVersions -/

/-- C6: `filterHiddenVersions` leaves its caller-owned argument unchanged (the
deep copy severs aliasing before any mutation), removes every hidden version
from each project, and drops every project left with zero versions; in the
result every remaining version is non-hidden and every project non-empty. -/
theorem filterHiddenVersions_spec (ps : List Project) :
    (filterHiddenVersionsImpl ps).2 = ps ∧
    filterHiddenVersions ps = ps.filterMap (fun p =>
      if (p.versions.filter (fun v => !v.hidden)).length = 0 then none
      else some { p with versions := p.versions.filter (fun v => !v.hidden) }) ∧
    ∀ p ∈ filterHiddenVersions ps,
      p.versions ≠ [] ∧ ∀ v ∈ p.versions, v.hidden = false := by
  refine ⟨rfl, ?_, ?_⟩
  · show ((ps.map (fun p =>
          { p with versions := p.versions.filter (fun v => !v.hidden) })).filter
        (fun p => 0 < p.versions.length) : List Project) =
      ps.filterMap (fun p =>
        if (p.versions.filter (fun v => !v.hidden)).length = 0 then none
        else some { p with versions := p.versions.filter (fun v => !v.hidden) })
    induction ps with
    | nil => rfl
    | cons p ps ih =>
      simp only [List.map_cons, List.filter_cons, List.filterMap_cons]
      by_cases h : (p.versions.filter (fun v => !v.hidden)).length = 0
      · have h' : ¬(decide (0 < ({ p with
            versions := p.versions.filter (fun v => !v.hidden) } : Project).versions.length) =
              true) := by
          simp only [decide_eq_true_eq]
          show ¬(0 < (p.versions.filter (fun v => !v.hidden)).length)
          omega
        rw [if_neg h', if_pos h]
        exact ih
      · have h' : decide (0 < ({ p with
            versions := p.versions.filter (fun v => !v.hidden) } : Project).versions.length) =
              true := by
          simp only [decide_eq_true_eq]
          show 0 < (p.versions.filter (fun v => !v.hidden)).length
          omega
        rw [if_pos h', if_neg h]
        exact congrArg (List.cons _) ih
  · intro p hp
    unfold filterHiddenVersions filterHiddenVersionsImpl at hp
    simp only [List.mem_filter, List.mem_map] at hp
    obtain ⟨⟨p0, hp0, rfl⟩, hlen⟩ := hp
    constructor
    · intro hnil
      have hnil' : p0.versions.filter (fun v => !v.hidden) = [] := hnil
      rw [hnil'] at hlen
      simp at hlen
    · intro v hv
      simp only [List.mem_filter] at hv
      simpa using hv.2

/-! ## Claims C7, C8, C10: search -/

/-- C7: the `versions` field of a search result is exactly the version-name
matches followed by the tag matches, each group in original project/version
(and tag) iteration order, hidden versions contributing to neither group. -/
theorem search_versions_spec (ps : List Project) (q : String) :
    (search ps q).versions =
      versionNameMatches ps (jsTrim (jsToLower q)) ++
        tagMatches ps (jsTrim (jsToLower q)) := by
  simp only [search, versionNameMatches, tagMatches, List.flatMap_def,
    List.map_map, Function.comp_def]

/-- C8: a project appears among the `projects` of a search result exactly when
its lower-cased name contains the normalized query and it has at least one
non-hidden version. -/
theorem search_projects_spec (ps : List Project) (q : String)
    (r : ProjectSearchResult) :
    r ∈ (search ps q).projects ↔
      ∃ p, p ∈ ps ∧ r = { name := p.name } ∧
        strIncludes (jsToLower p.name) (jsTrim (jsToLower q)) = true ∧
        ∃ v, v ∈ p.versions ∧ v.hidden = false := by
  simp only [search, List.mem_map, List.mem_filter, Bool.and_eq_true,
    List.any_eq_true, Bool.not_eq_true']
  constructor
  · rintro ⟨p, ⟨hp, hinc, v, hv, hhid⟩, rfl⟩
    exact ⟨p, hp, rfl, hinc, v, hv, hhid⟩
  · rintro ⟨p, hp, rfl, hinc, v, hv, hhid⟩
    exact ⟨p, ⟨hp, hinc, v, hv, hhid⟩, rfl⟩

theorem includesL_nil (l : List Char) : includesL [] l = true := by
  induction l with
  | nil => rfl
  | cons c rest ih => simp [includesL, startsAt]

theorem strIncludes_empty (s : String) : strIncludes s "" = true := by
  have h : "".data = ([] : List Char) := by decide
  unfold strIncludes
  rw [h]
  exact includesL_nil s.data

/-- C10: a query that normalizes to the empty string matches everything:
every project with a non-hidden version, every non-hidden version, and one
entry per tag of every non-hidden version. -/
theorem search_empty_query (ps : List Project) (q : String)
    (h : jsTrim (jsToLower q) = "") :
    search ps q =
      { projects := (ps.filter (fun p => p.versions.any (fun v => !v.hidden))).map
          (fun p => { name := p.name }),
        versions :=
          ps.flatMap (fun p =>
            (p.versions.filter (fun v => !v.hidden)).map
              (fun v => { project := p.name, version := v.name })) ++
          ps.flatMap (fun p =>
            (p.versions.filter (fun v => !v.hidden)).flatMap (fun v =>
              v.tags.map (fun t =>
                ({ project := p.name, version := t } : VersionSearchResult)))) } := by
  simp only [search, h, strIncludes_empty, Bool.true_and, List.flatMap_def,
    List.map_map, Function.comp_def, List.filter_true]

/-- Witness for C10 at a concrete project list and the whitespace query. -/
theorem search_empty_query_witness :
    search [⟨"Alpha", [⟨"1.0", ["v1-beta"], false⟩, ⟨"2.0", [], true⟩]⟩] "  " =
      { projects := [⟨"Alpha"⟩],
        versions := [⟨"Alpha", "1.0"⟩, ⟨"Alpha", "v1-beta"⟩] } := by
  rw [search_empty_query [⟨"Alpha", [⟨"1.0", ["v1-beta"], false⟩, ⟨"2.0", [], true⟩]⟩]
    "  " (by decide)]
  decide

/-! ## Claim C9: the favorite store -/

theorem getItem_cons (e : String × String) (s : Store) (k : String) :
    getItem (e :: s) k = if e.1 == k then some e.2 else getItem s k := by
  unfold getItem
  by_cases h : (e.1 == k) = true
  · simp [List.find?, h]
  · have h' : (e.1 == k) = false := by simpa using h
    simp [List.find?, h']

theorem getItem_map_replace (k v : String) :
    ∀ s : Store, s.any (fun e => e.1 == k) = true →
      getItem (s.map (fun e => if e.1 == k then (k, v) else e)) k = some v := by
  intro s
  induction s with
  | nil => intro h; simp at h
  | cons e es ih =>
    intro h
    simp only [List.map_cons]
    by_cases he : (e.1 == k) = true
    · rw [if_pos he, getItem_cons, if_pos (beq_self_eq_true k)]
    · rw [if_neg he, getItem_cons, if_neg he]
      apply ih
      have he' : (e.1 == k) = false := by simpa using he
      simp only [List.any_cons, he'] at h
      simpa using h

theorem getItem_append_new (k v : String) :
    ∀ s : Store, s.any (fun e => e.1 == k) = false →
      getItem (s ++ [(k, v)]) k = some v := by
  intro s
  induction s with
  | nil =>
    intro _
    simp only [List.nil_append]
    rw [getItem_cons, if_pos (beq_self_eq_true k)]
  | cons e es ih =>
    intro h
    simp only [List.any_cons, Bool.or_eq_false_iff] at h
    rw [List.cons_append, getItem_cons, if_neg (by simp [h.1])]
    exact ih h.2

theorem getItem_setItem_self (s : Store) (k v : String) :
    getItem (setItem s k v) k = some v := by
  unfold setItem
  by_cases h : s.any (fun e => e.1 == k)
  · rw [if_pos h]
    exact getItem_map_replace k v s h
  · rw [if_neg h]
    rw [Bool.not_eq_true] at h
    exact getItem_append_new k v s h

theorem getItem_removeItem_self (s : Store) (k : String) :
    getItem (removeItem s k) k = none := by
  have h : (removeItem s k).find? (fun e => e.1 == k) = none := by
    rw [List.find?_eq_none]
    intro x hx
    have hx' := (List.mem_filter.1 hx).2
    simp only [Bool.not_eq_true'] at hx'
    simp [hx']
  unfold getItem
  rw [h]
  rfl

theorem hasKey_removeItem (s : Store) (k : String) :
    hasKey (removeItem s k) k = false := by
  unfold hasKey removeItem
  rw [List.any_eq_false]
  intro x hx
  have hx' := (List.mem_filter.1 hx).2
  simp only [Bool.not_eq_true'] at hx'
  simp [hx']

/-- C9: `isFavorite` is true exactly when the store holds the sentinel value
`"favorite"` under the project name (so an absent key or any other value reads
as not-favorite); `setFavorite p true` writes the sentinel; `setFavorite p
false` removes the key entirely, so after setting and then clearing, the store
holds no entry for `p` and `isFavorite` is false. -/
theorem favorite_spec (s : Store) (p : String) :
    (isFavorite s p = true ↔ getItem s p = some "favorite") ∧
    getItem (setFavorite s p true) p = some "favorite" ∧
    hasKey (setFavorite (setFavorite s p true) p false) p = false ∧
    isFavorite (setFavorite (setFavorite s p true) p false) p = false := by
  refine ⟨?_, ?_, ?_, ?_⟩
  · unfold isFavorite
    simp
  · exact getItem_setItem_self s p "favorite"
  · exact hasKey_removeItem (setItem s p "favorite") p
  · unfold isFavorite
    show (getItem (removeItem (setItem s p "favorite") p) p == some "favorite") = false
    rw [getItem_removeItem_self (setItem s p "favorite") p]
    rfl

end Docat
